import Mathlib

/-!
The line-execution core of unixminishell (`shell.go`, `redirects.go`).

A shallow embedding of the interpreter core.  Go strings are modelled as lists of
characters (`Str`), i.e. as valid UTF-8 text; every separator the program uses is an
ASCII literal, so byte offsets and character offsets of the separators agree.
Operating-system primitives (process creation, pipe creation, directory change) are
parameters of the model.
-/

namespace MiniShell

/-- Go `string`, as the list of its characters. -/
abbrev Str := List Char

/-! ## The `strings` / `unicode` functions the program calls -/

/-- Go `unicode.IsSpace`: the Latin-1 spaces and the `White_Space` property table. -/
def isSpace (c : Char) : Bool :=
  let n := c.toNat
  n == 0x09 || n == 0x0A || n == 0x0B || n == 0x0C || n == 0x0D || n == 0x20 ||
  n == 0x85 || n == 0xA0 || n == 0x1680 || (0x2000 ≤ n && n ≤ 0x200A) ||
  n == 0x2028 || n == 0x2029 || n == 0x202F || n == 0x205F || n == 0x3000

/-- Go `strings.TrimSpace`: drops leading and trailing white space. -/
def TrimSpace (s : Str) : Str :=
  ((s.dropWhile isSpace).reverse.dropWhile isSpace).reverse

/-- Go `strings.HasPrefix`. -/
def HasPrefix (s pre : Str) : Bool := pre.isPrefixOf s

/-- Go `strings.Contains`: `substr` occurs somewhere in `s`. -/
def Contains : Str → Str → Bool
  | [], substr => substr.isEmpty
  | c :: rest, substr => HasPrefix (c :: rest) substr || Contains rest substr

/-- Scan of `strings.Split` for a non-empty separator: leftmost, non-overlapping
occurrences of `sep` cut the text; `skip` counts the characters of a matched
separator that are still to be passed over. -/
def splitScan (sep : Str) : Nat → Str → List Str
  | _, [] => [[]]
  | skip + 1, _ :: rest => splitScan sep skip rest
  | 0, c :: rest =>
    if HasPrefix (c :: rest) sep then [] :: splitScan sep (sep.length - 1) rest
    else
      match splitScan sep 0 rest with
      | piece :: pieces => (c :: piece) :: pieces
      | [] => [[c]]

/-- Go `strings.Split(s, sep)`; an empty separator explodes the text into characters. -/
def Split (s sep : Str) : List Str :=
  if sep.isEmpty then s.map (fun c => [c]) else splitScan sep 0 s

/-- Scan of `strings.Fields`: `cur` is the field being read, reversed. -/
def fieldsScan : Str → Str → List Str
  | [], cur => if cur.isEmpty then [] else [cur.reverse]
  | c :: rest, cur =>
    if isSpace c then
      (if cur.isEmpty then fieldsScan rest [] else cur.reverse :: fieldsScan rest [])
    else fieldsScan rest (c :: cur)

/-- Go `strings.Fields`: the maximal runs of non-space characters. -/
def Fields (s : Str) : List Str := fieldsScan s []

/-- Scan of `strings.ReplaceAll` for a non-empty `old`. -/
def replaceScan (old new : Str) : Nat → Str → Str
  | _, [] => []
  | skip + 1, _ :: rest => replaceScan old new skip rest
  | 0, c :: rest =>
    if HasPrefix (c :: rest) old then new ++ replaceScan old new (old.length - 1) rest
    else c :: replaceScan old new 0 rest

/-- Go `strings.ReplaceAll(s, old, new)`; an empty `old` matches before every
character and at the end. -/
def ReplaceAll (s old new : Str) : Str :=
  if old.isEmpty then new ++ (s.map (fun c => c :: new)).flatten
  else replaceScan old new 0 s

/-! ## `redirects.go` -/

/-- The record `RedirectInfo`. -/
structure RedirectInfo where
  inputFile : Str
  outputFile : Str
  append : Bool
  deriving DecidableEq, Repr

/-- The input half of `parseRedirects` (lines 21-27). -/
def parseInput (cmdStr : Str) (redirects : RedirectInfo) : Str × RedirectInfo :=
  if Contains cmdStr "<".toList then
    match Split cmdStr "<".toList with
    | [p0, p1] => (TrimSpace p0, { redirects with inputFile := TrimSpace p1 })
    | _ => (cmdStr, redirects)
  else (cmdStr, redirects)

/-- The output half of `parseRedirects` (lines 30-43). -/
def parseOutput (cmdStr : Str) (redirects : RedirectInfo) : Str × RedirectInfo :=
  if Contains cmdStr ">".toList then
    match Split cmdStr ">".toList with
    | [p0, p1] =>
      let outputFile := TrimSpace p1
      if HasPrefix outputFile ">".toList then
        (TrimSpace p0,
          { redirects with append := true, outputFile := TrimSpace (outputFile.drop 1) })
      else (TrimSpace p0, { redirects with outputFile := outputFile })
    | _ => (cmdStr, redirects)
  else (cmdStr, redirects)

/-- The function `parseRedirects`: input redirect first, then output redirect on the
text the input step left. -/
def parseRedirects (cmdStr : Str) : Str × RedirectInfo :=
  let r := parseInput cmdStr { inputFile := [], outputFile := [], append := false }
  parseOutput r.1 r.2

/-! ## `shell.go`: environment expansion and the conditional splitter -/

/-- The method `expandEnvironmentVariables`; `env` lists the entries of the map
`s.env` in the order the `range` loop visits them. -/
def expandEnvironmentVariables (env : List (Str × Str)) (input : Str) : Str :=
  env.foldl (fun acc kv => ReplaceAll acc ('$' :: kv.1) kv.2) input

/-- The record `Command`: a segment, the operator that joins it to the previous
segment, and its gate flag. -/
structure Command where
  command : Str
  condition : Str
  shouldExecute : Bool
  deriving DecidableEq, Repr

/-- The method `parseConditionalCommands`: split on `&&`, then each piece on `||`. -/
def parseConditionalCommands (input : Str) : List Command :=
  let parts := Split input "&&".toList
  let commands : List Command := parts.enum.map (fun ip =>
    if ip.1 = 0 then
      { command := TrimSpace ip.2, condition := [], shouldExecute := true }
    else
      { command := TrimSpace ip.2, condition := "&&".toList, shouldExecute := true })
  commands.flatMap (fun cmd =>
    (Split cmd.command "||".toList).enum.map (fun jp =>
      if jp.1 = 0 then
        { command := TrimSpace jp.2, condition := cmd.condition, shouldExecute := true }
      else
        { command := TrimSpace jp.2, condition := "||".toList, shouldExecute := true }))

/-- The method `parsePipelines`. -/
def parsePipelines (input : Str) : List Str := Split input "|".toList

/-- What `executeCommand` does with one segment that passed the guards
(lines 94-101): a single stage goes to the simple-command path, anything else to
the pipeline path. -/
def dispatch {σ : Type} (simple : Str → σ → σ) (pipeline : List Str → σ → σ)
    (cmd : Command) (w : σ) : σ :=
  match parsePipelines cmd.command with
  | [stage] => simple stage w
  | stages => pipeline stages w

/-- The loop of `executeCommand` (lines 85-104) over the parsed segments.  The
assignment `cmd.shouldExecute = true` at the end of the body writes to the
segment that has just run and is read by no later iteration. -/
def runCommands {σ : Type} (simple : Str → σ → σ) (pipeline : List Str → σ → σ) :
    List Command → σ → σ
  | [], w => w
  | cmd :: rest, w =>
    if cmd.condition = "&&".toList ∧ cmd.shouldExecute = false then
      runCommands simple pipeline rest w
    else if cmd.condition = "||".toList ∧ cmd.shouldExecute = true then
      runCommands simple pipeline rest w
    else
      runCommands simple pipeline rest (dispatch simple pipeline cmd w)

/-- The method `executeCommand`, over any state `σ` and any implementation of the
two execution paths. -/
def executeCommand {σ : Type} (simple : Str → σ → σ) (pipeline : List Str → σ → σ)
    (env : List (Str × Str)) (input : Str) (w : σ) : σ :=
  runCommands simple pipeline
    (parseConditionalCommands (expandEnvironmentVariables env input)) w

/-! ## `shell.go`: the single-stage path -/

/-- The observable state: the bytes written so far to the interpreter's own
standard output, and the contents of the files. -/
structure World where
  stdout : Str
  files : List (Str × Str)
  deriving DecidableEq, Repr

/-- The operating-system side of the shell: each field is the effect of the
corresponding method, whose body is operating-system calls. -/
structure Host where
  chdir : Str → World → World
  builtinPWD : World → World
  builtinKill : List Str → World → World
  builtinPS : World → World
  executeExternalCommandWithRedirects : Str → List Str → RedirectInfo → World → World
  executePipeline : List Str → World → World

/-- The method `isBuiltinCommand`. -/
def isBuiltinCommand (command : Str) : Bool :=
  ["cd".toList, "pwd".toList, "echo".toList, "kill".toList, "ps".toList].any
    (fun builtin => command = builtin)

/-- The text `builtinEcho` prints: the arguments, a space before each but the
first, then a newline. -/
def echoText (args : List Str) : Str :=
  (args.enum.foldl (fun out ia =>
    (if 0 < ia.1 then out ++ " ".toList else out) ++ ia.2) []) ++ "\n".toList

/-- The method `builtinEcho`: it prints with `fmt.Print`, i.e. on the
interpreter's own standard output. -/
def builtinEcho (args : List Str) (w : World) : World :=
  { w with stdout := w.stdout ++ echoText args }

/-- The method `builtinCD`. -/
def builtinCD (host : Host) (env : List (Str × Str)) (args : List Str) (w : World) : World :=
  let path := match args with
    | [] => (env.lookup "HOME".toList).getD []
    | a :: _ => a
  host.chdir (expandEnvironmentVariables env path) w

/-- The method `executeBuiltinCommand`. -/
def executeBuiltinCommand (host : Host) (env : List (Str × Str)) (command : Str)
    (args : List Str) (w : World) : World :=
  if command = "cd".toList then builtinCD host env args w
  else if command = "pwd".toList then host.builtinPWD w
  else if command = "echo".toList then builtinEcho args w
  else if command = "kill".toList then host.builtinKill args w
  else if command = "ps".toList then host.builtinPS w
  else w

/-- The method `executeSimpleCommand`. -/
def executeSimpleCommand (host : Host) (env : List (Str × Str)) (cmdStr : Str)
    (w : World) : World :=
  let parsed := parseRedirects cmdStr
  match Fields parsed.1 with
  | [] => w
  | command :: args =>
    if isBuiltinCommand command then executeBuiltinCommand host env command args w
    else host.executeExternalCommandWithRedirects command args parsed.2 w

/-- The shell proper: `executeCommand` on the two execution paths of `shell.go`. -/
def shellExecute (host : Host) (env : List (Str × Str)) (input : Str) (w : World) : World :=
  executeCommand (executeSimpleCommand host env) host.executePipeline env input w

/-! ## `shell.go`: the pipeline path -/

/-- An open file handle (`*os.File`), identified by a number. -/
abbrev File := Nat

/-- What a standard stream of a process is bound to. -/
inductive Stream where
  | inherited
  | handle (f : File)
  deriving DecidableEq, Repr

/-- The fields of `exec.Cmd` that `executePipeline` sets. -/
structure Cmd where
  path : Str
  args : List Str
  stdin : Stream
  stdout : Stream
  deriving DecidableEq, Repr

/-- The operating-system calls of `executePipeline`: `pipe k` is the result of
the `k`-th call of `os.Pipe` (read end, write end; `none` is an error), `start i cmd`
tells whether `cmd.Start()` succeeds for stage `i`. -/
structure PipeOS where
  pipe : Nat → Option (File × File)
  start : Nat → Cmd → Bool

/-- The messages `executePipeline` prints. -/
inductive Report where
  | pipeError
  | startError
  deriving DecidableEq, Repr

/-- The state `executePipeline` leaves: the endpoints it created (the slice
`pipes`), the processes it started, the processes it waited for, the endpoints it
closed, and what it printed. -/
structure PipelineResult where
  pipes : List File
  processes : List Cmd
  waited : List Cmd
  closed : List File
  reports : List Report
  deriving DecidableEq, Repr

/-- The pipe-creation loop (lines 322-330): `todo` iterations remain, `i` is the
loop counter.  `Except.error` carries the endpoints created before the failing call. -/
def createPipes (pipe : Nat → Option (File × File)) :
    Nat → Nat → List File → Except (List File) (List File)
  | 0, _, pipes => .ok pipes
  | todo + 1, i, pipes =>
    match pipe i with
    | none => .error pipes
    | some (r, w) => createPipes pipe todo (i + 1) (pipes ++ [r, w])

/-- The standard input of stage `i` (lines 343-349); `none` is an index out of range. -/
def stageStdin (pipes : List File) (i : Nat) : Option Stream :=
  if i = 0 then some .inherited else (pipes[(i - 1) * 2]?).map .handle

/-- The standard output of stage `i` of `n` (lines 351-357); `none` is an index out
of range. -/
def stageStdout (pipes : List File) (n i : Nat) : Option Stream :=
  if i = n - 1 then some .inherited else (pipes[i * 2 + 1]?).map .handle

/-- The start loop (lines 334-367) from stage `i` on: `none` is an index out of
range, otherwise the started processes and whether the loop ran to its end
(`false`: a start failed and the function returned). -/
def startStages (os : PipeOS) (pipes : List File) (n : Nat) :
    Nat → List Str → List Cmd → Option (List Cmd × Bool)
  | _, [], processes => some (processes, true)
  | i, pipeline :: rest, processes =>
    match Fields pipeline with
    | [] => startStages os pipes n (i + 1) rest processes
    | path :: args =>
      match stageStdin pipes i, stageStdout pipes n i with
      | some stdin, some stdout =>
        let cmd : Cmd := { path := path, args := args, stdin := stdin, stdout := stdout }
        if os.start i cmd then startStages os pipes n (i + 1) rest (processes ++ [cmd])
        else some (processes, false)
      | _, _ => none

/-- The method `executePipeline`: the state it leaves when it returns; `none` is a
run-time panic (index out of range).  On the path where every start succeeded
the `cmd.Wait()` calls are taken to return. -/
def executePipeline (os : PipeOS) (pipelines : List Str) : Option PipelineResult :=
  if pipelines.length = 0 then
    some { pipes := [], processes := [], waited := [], closed := [], reports := [] }
  else
    match createPipes os.pipe (pipelines.length - 1) 0 [] with
    | .error pipes =>
      some { pipes := pipes, processes := [], waited := [], closed := [],
             reports := [.pipeError] }
    | .ok pipes =>
      match startStages os pipes pipelines.length 0 pipelines [] with
      | none => none
      | some (processes, false) =>
        some { pipes := pipes, processes := processes, waited := [], closed := [],
               reports := [.startError] }
      | some (processes, true) =>
        some { pipes := pipes, processes := processes, waited := processes,
               closed := pipes, reports := [] }

/-- A log of dispatched work, used to observe which segments `executeCommand`
hands to the execution paths: one entry (the stage list) per executed segment. -/
def logSimple (stage : Str) (log : List (List Str)) : List (List Str) := log ++ [[stage]]

/-- The pipeline path of the dispatch log. -/
def logPipeline (stages : List Str) (log : List (List Str)) : List (List Str) :=
  log ++ [stages]

/-- A host on which every pipe creation and every start succeeds; the `k`-th pipe
has the read end `2k+3` and the write end `2k+4`. -/
def demoOS : PipeOS :=
  { pipe := fun k => some (2 * k + 3, 2 * k + 4), start := fun _ _ => true }

/-- The stage list `parsePipelines` yields for the segment `ls | sort | wc`. -/
def demoStages : List Str := ["ls ".toList, " sort ".toList, " wc".toList]

/-! ## Lemmas on the string functions -/

theorem hasPrefix_cons_cons (c d : Char) (s t : Str) :
    HasPrefix (c :: s) (d :: t) = (c == d && HasPrefix s t) := by
  by_cases h : c = d
  · subst h; simp [HasPrefix, List.isPrefixOf]
  · have h1 : (c == d) = false := by simpa using h
    have h2 : (d == c) = false := by simpa using fun e : d = c => h e.symm
    simp only [HasPrefix, List.isPrefixOf, h1, h2, Bool.false_and]

theorem replaceScan_absent (k new : Str) (d : Char) :
    ∀ s : Str, d ∉ s → replaceScan (d :: k) new 0 s = s := by
  intro s
  induction s with
  | nil => intro _; rfl
  | cons c rest ih =>
    intro h
    have hc : c ≠ d := fun e => h (by simp [e])
    have hr : d ∉ rest := fun e => h (by simp [e])
    simp [replaceScan, hasPrefix_cons_cons, hc, ih hr]

theorem replaceAll_absent (k new s : Str) (d : Char) (h : d ∉ s) :
    ReplaceAll s (d :: k) new = s := by
  simp [ReplaceAll, replaceScan_absent k new d s h]

theorem expand_absent (env : List (Str × Str)) :
    ∀ line : Str, '$' ∉ line → expandEnvironmentVariables env line = line := by
  induction env with
  | nil => intro line _; rfl
  | cons kv rest ih =>
    intro line h
    have step : expandEnvironmentVariables (kv :: rest) line =
        expandEnvironmentVariables rest (ReplaceAll line ('$' :: kv.1) kv.2) := rfl
    rw [step, replaceAll_absent kv.1 kv.2 line '$' h]
    exact ih line h

theorem splitScan_ne_nil (sep : Str) : ∀ (s : Str) (k : Nat), splitScan sep k s ≠ [] := by
  intro s
  induction s with
  | nil => intro k; simp [splitScan]
  | cons c rest ih =>
    intro k
    cases k with
    | succ k => simpa [splitScan] using ih k
    | zero =>
      simp only [splitScan]
      split
      · simp
      · split <;> simp

theorem splitScan_single_length (d : Char) :
    ∀ s : Str, (splitScan [d] 0 s).length = s.count d + 1 := by
  intro s
  induction s with
  | nil => simp [splitScan]
  | cons c rest ih =>
    by_cases hc : c = d
    · subst hc
      simp [splitScan, hasPrefix_cons_cons, HasPrefix, ih]
    · have hne : splitScan [d] 0 rest ≠ [] := splitScan_ne_nil [d] rest 0
      have hcount : (c :: rest).count d = rest.count d := by
        simp [List.count_cons, hc]
      rw [hcount, ← ih]
      simp only [splitScan, hasPrefix_cons_cons, beq_iff_eq, hc, Bool.false_and]
      cases hsp : splitScan [d] 0 rest with
      | nil => exact absurd hsp hne
      | cons piece pieces => simp [hc]

theorem split_single_length (d : Char) (s : Str) :
    (Split s [d]).length = s.count d + 1 := by
  simp [Split, splitScan_single_length]

theorem parseInput_unchanged (s : Str) (r : RedirectInfo) (h : s.count '<' ≠ 1) :
    parseInput s r = (s, r) := by
  have hlen : (Split s ['<']).length ≠ 2 := by
    rw [split_single_length]; omega
  have e : "<".toList = ['<'] := rfl
  unfold parseInput
  rw [e]
  split
  · split
    · rename_i p0 p1 heq
      rw [heq] at hlen
      simp at hlen
    · rfl
  · rfl

theorem parseOutput_unchanged (s : Str) (r : RedirectInfo) (h : s.count '>' ≠ 1) :
    parseOutput s r = (s, r) := by
  have hlen : (Split s ['>']).length ≠ 2 := by
    rw [split_single_length]; omega
  have e : ">".toList = ['>'] := rfl
  unfold parseOutput
  rw [e]
  split
  · split
    · rename_i p0 p1 heq
      rw [heq] at hlen
      simp at hlen
    · rfl
  · rfl

theorem splitScan_single_pieces (d : Char) :
    ∀ s : Str, ∀ p ∈ splitScan [d] 0 s, d ∉ p := by
  intro s
  induction s with
  | nil => intro p hp; simp [splitScan] at hp; simp [hp]
  | cons c rest ih =>
    intro p hp
    by_cases hc : c = d
    · subst hc
      simp [splitScan, hasPrefix_cons_cons, HasPrefix] at hp
      rcases hp with hp | hp
      · simp [hp]
      · exact ih p hp
    · simp only [splitScan, hasPrefix_cons_cons, beq_iff_eq, hc, Bool.false_and] at hp
      cases hsp : splitScan [d] 0 rest with
      | nil => exact absurd hsp (splitScan_ne_nil [d] rest 0)
      | cons piece pieces =>
        rw [hsp] at hp ih
        simp [hc] at hp
        rcases hp with hp | hp
        · subst hp
          have hpiece : d ∉ piece := ih piece (by simp)
          intro hmem
          rcases List.mem_cons.mp hmem with e | e
          · exact hc e.symm
          · exact hpiece e
        · exact ih p (by simp [hp])

theorem mem_of_mem_TrimSpace (c : Char) (s : Str) (h : c ∈ TrimSpace s) : c ∈ s := by
  unfold TrimSpace at h
  have h1 : c ∈ (s.dropWhile isSpace).reverse.dropWhile isSpace := List.mem_reverse.mp h
  have h2 : c ∈ (s.dropWhile isSpace).reverse := (List.dropWhile_sublist _).subset h1
  exact (List.dropWhile_sublist _).subset (List.mem_reverse.mp h2)

theorem parseInput_append (s : Str) (r : RedirectInfo) :
    (parseInput s r).2.append = r.append := by
  unfold parseInput
  split
  · split <;> rfl
  · rfl

theorem parseOutput_append (s : Str) (r : RedirectInfo) (h : r.append = false) :
    (parseOutput s r).2.append = false := by
  have e : ">".toList = ['>'] := rfl
  unfold parseOutput
  rw [e]
  split
  · split
    · rename_i p0 p1 heq
      have hp1 : '>' ∉ p1 := splitScan_single_pieces '>' s p1 (by
        have : Split s ['>'] = splitScan ['>'] 0 s := by simp [Split]
        rw [← this, heq]; simp)
      have hpre : HasPrefix (TrimSpace p1) ['>'] = false := by
        cases ht : TrimSpace p1 with
        | nil => simp [HasPrefix, List.isPrefixOf]
        | cons x xs =>
          have hx : x ≠ '>' := by
            intro ex
            apply hp1
            apply mem_of_mem_TrimSpace
            rw [ht, ex]; simp
          have hb : (x == '>') = false := by simpa using hx
          rw [hasPrefix_cons_cons, hb]; rfl
      simp only [hpre]
      exact h
    · exact h
  · exact h

theorem parsed_shouldExecute (input : Str) :
    ∀ c ∈ parseConditionalCommands input, c.shouldExecute = true := by
  intro c hc
  simp only [parseConditionalCommands, List.mem_flatMap, List.mem_map] at hc
  obtain ⟨_, _, jp, _, rfl⟩ := hc
  split <;> rfl

theorem runCommands_append {σ : Type} (simple : Str → σ → σ) (pipeline : List Str → σ → σ) :
    ∀ (pre post : List Command) (w : σ),
      runCommands simple pipeline (pre ++ post) w =
        runCommands simple pipeline post (runCommands simple pipeline pre w) := by
  intro pre
  induction pre with
  | nil => intro post w; rfl
  | cons c rest ih =>
    intro post w
    simp only [List.cons_append, runCommands]
    split
    · exact ih post w
    · split
      · exact ih post w
      · exact ih post _

theorem runCommands_gated {σ : Type} (simple : Str → σ → σ) (pipeline : List Str → σ → σ) :
    ∀ (cmds : List Command) (w : σ), (∀ c ∈ cmds, c.shouldExecute = true) →
      runCommands simple pipeline cmds w =
        (cmds.filter (fun c => decide (c.condition ≠ "||".toList))).foldl
          (fun st c => dispatch simple pipeline c st) w := by
  intro cmds
  induction cmds with
  | nil => intro w _; rfl
  | cons c rest ih =>
    intro w h
    have hc : c.shouldExecute = true := h c (by simp)
    have hrest : ∀ x ∈ rest, x.shouldExecute = true := fun x hx => h x (by simp [hx])
    by_cases hor : c.condition = "||".toList
    · have hf : decide (c.condition ≠ "||".toList) = false :=
        decide_eq_false (fun hn => hn hor)
      have step : runCommands simple pipeline (c :: rest) w =
          runCommands simple pipeline rest w := by
        simp only [runCommands]
        split
        · rfl
        · rw [if_pos ⟨hor, hc⟩]
      rw [step, ih w hrest]
      simp only [List.filter_cons, hf, Bool.false_eq_true, if_false]
    · have hf : decide (c.condition ≠ "||".toList) = true := decide_eq_true hor
      have step : runCommands simple pipeline (c :: rest) w =
          runCommands simple pipeline rest (dispatch simple pipeline c w) := by
        simp only [runCommands]
        rw [if_neg (fun hn => by rw [hc] at hn; exact Bool.noConfusion hn.2),
          if_neg (fun hn => hor hn.1)]
      rw [step, ih _ hrest]
      simp only [List.filter_cons, hf, if_true, List.foldl_cons]

theorem createPipes_ok (pipe : Nat → Option (File × File)) :
    ∀ (todo i : Nat) (acc : List File), (∀ k, k < todo → (pipe (i + k)).isSome) →
      ∃ ps, createPipes pipe todo i acc = .ok ps ∧ ps.length = acc.length + 2 * todo ∧
        (∀ j, j < acc.length → ps[j]? = acc[j]?) ∧
        ∀ k, k < todo → ∃ r w, pipe (i + k) = some (r, w) ∧
          ps[acc.length + 2 * k]? = some r ∧ ps[acc.length + 2 * k + 1]? = some w := by
  intro todo
  induction todo with
  | zero =>
    intro i acc _
    exact ⟨acc, rfl, by simp, fun _ _ => rfl, fun k hk => absurd hk (Nat.not_lt_zero k)⟩
  | succ todo ih =>
    intro i acc h
    have h0 := h 0 (Nat.succ_pos todo)
    rw [Nat.add_zero] at h0
    obtain ⟨⟨r, w⟩, hrw⟩ := Option.isSome_iff_exists.mp h0
    have hnext : ∀ k, k < todo → (pipe (i + 1 + k)).isSome := by
      intro k hk
      have := h (k + 1) (Nat.succ_lt_succ hk)
      rwa [show i + (k + 1) = i + 1 + k by omega] at this
    obtain ⟨ps, hps, hlen, hpre, hget⟩ := ih (i + 1) (acc ++ [r, w]) hnext
    have hacc : (acc ++ [r, w]).length = acc.length + 2 := by simp
    refine ⟨ps, ?_, ?_, ?_, ?_⟩
    · simp only [createPipes, hrw]; exact hps
    · rw [hlen, hacc]; omega
    · intro j hj
      rw [hpre j (by rw [hacc]; omega), List.getElem?_append_left hj]
    · intro k hk
      cases k with
      | zero =>
        refine ⟨r, w, by simpa using hrw, ?_, ?_⟩
        · rw [Nat.mul_zero, Nat.add_zero, hpre _ (by rw [hacc]; omega),
            List.getElem?_append_right (Nat.le_refl _), Nat.sub_self]
          rfl
        · rw [Nat.mul_zero, Nat.add_zero, hpre _ (by rw [hacc]; omega),
            List.getElem?_append_right (Nat.le_succ _),
            show acc.length.succ - acc.length = 1 by omega]
          rfl
      | succ k =>
        obtain ⟨r2, w2, hp2, hr2, hw2⟩ := hget k (Nat.lt_of_succ_lt_succ hk)
        refine ⟨r2, w2, ?_, ?_, ?_⟩
        · rwa [show i + (k + 1) = i + 1 + k by omega]
        · rw [← hr2, hacc]; congr 1; omega
        · rw [← hw2, hacc]; congr 1; omega

theorem stage_streams_exist (pipes : List File) (n i : Nat)
    (hlen : pipes.length = 2 * (n - 1)) (hi : i < n) :
    (∃ a, stageStdin pipes i = some a) ∧ (∃ b, stageStdout pipes n i = some b) := by
  constructor
  · unfold stageStdin
    by_cases h0 : i = 0
    · exact ⟨_, if_pos h0⟩
    · have hb : (i - 1) * 2 < pipes.length := by rw [hlen]; omega
      exact ⟨.handle (pipes[(i - 1) * 2]), by
        rw [if_neg h0, List.getElem?_eq_getElem hb]; rfl⟩
  · unfold stageStdout
    by_cases h0 : i = n - 1
    · exact ⟨_, if_pos h0⟩
    · have hb : i * 2 + 1 < pipes.length := by rw [hlen]; omega
      exact ⟨.handle (pipes[i * 2 + 1]), by
        rw [if_neg h0, List.getElem?_eq_getElem hb]; rfl⟩

theorem startStages_wired (os : PipeOS) (pipes : List File) (stages : List Str)
    (hlen : pipes.length = 2 * (stages.length - 1)) :
    ∀ (rest : List Str) (i : Nat) (processes : List Cmd), stages.drop i = rest →
      ∃ (started : List Cmd) (done : Bool) (idx : List Nat),
        startStages os pipes stages.length i rest processes =
          some (processes ++ started, done) ∧
        List.Forall₂ (fun j p =>
          (∃ stage, stages[j]? = some stage ∧ Fields stage = p.path :: p.args) ∧
          stageStdin pipes j = some p.stdin ∧
          stageStdout pipes stages.length j = some p.stdout) idx started ∧
        idx.Pairwise (fun a b => a < b) ∧
        (∀ x ∈ idx, i ≤ x) ∧
        (done = true → ∀ x stage, i ≤ x → stages[x]? = some stage →
          Fields stage ≠ [] → x ∈ idx) ∧
        ((∀ j cmd, os.start j cmd = true) → done = true) := by
  intro rest
  induction rest with
  | nil =>
    intro i processes hdrop
    refine ⟨[], true, [], by simp [startStages], List.Forall₂.nil, List.Pairwise.nil,
      fun x hx => absurd hx (List.not_mem_nil x), ?_, fun _ => rfl⟩
    intro _ x stage hx hst _
    have hle : stages.length ≤ i := List.drop_eq_nil_iff.mp hdrop
    have hxl : x < stages.length := (List.getElem?_eq_some_iff.mp hst).1
    omega
  | cons stage rest ih =>
    intro i processes hdrop
    have hget : stages[i]? = some stage := by
      have h := congrArg (fun l => l[0]?) hdrop
      simpa using h
    have hil : i < stages.length := (List.getElem?_eq_some_iff.mp hget).1
    have hdrop2 : stages.drop (i + 1) = rest := by
      have h := congrArg (List.drop 1) hdrop
      simpa [Nat.add_comm] using h
    obtain ⟨⟨a, ha⟩, ⟨b, hb⟩⟩ := stage_streams_exist pipes stages.length i hlen hil
    cases hf : Fields stage with
    | nil =>
      obtain ⟨started, done, idx, hrun, hwired, hsorted, hlow, hall, hdone⟩ :=
        ih (i + 1) processes hdrop2
      refine ⟨started, done, idx, ?_, hwired, hsorted,
        fun x hx => Nat.le_of_succ_le (hlow x hx), ?_, hdone⟩
      · simp only [startStages, hf]; exact hrun
      · intro hd x st hx hst hne
        by_cases hxi : x = i
        · subst hxi
          rw [hget] at hst
          rw [← Option.some.inj hst] at hne
          exact absurd hf hne
        · exact hall hd x st (by omega) hst hne
    | cons path args =>
      cases hs : os.start i { path := path, args := args, stdin := a, stdout := b } with
      | false =>
        refine ⟨[], false, [], ?_, List.Forall₂.nil, List.Pairwise.nil,
          fun x hx => absurd hx (List.not_mem_nil x),
          fun hd => Bool.noConfusion hd, ?_⟩
        · simp only [startStages, hf, ha, hb, hs, List.append_nil]
          rfl
        · intro hstart
          rw [hstart] at hs
          exact Bool.noConfusion hs
      | true =>
        obtain ⟨started, done, idx, hrun, hwired, hsorted, hlow, hall, hdone⟩ :=
          ih (i + 1)
            (processes ++ [{ path := path, args := args, stdin := a, stdout := b }]) hdrop2
        refine ⟨{ path := path, args := args, stdin := a, stdout := b } :: started,
          done, i :: idx, ?_, ?_, ?_, ?_, ?_, hdone⟩
        · simp only [startStages, hf, ha, hb, hs, if_true]
          rw [hrun, List.append_assoc]
          rfl
        · exact List.Forall₂.cons ⟨⟨stage, hget, hf⟩, ha, hb⟩ hwired
        · exact List.Pairwise.cons (fun x hx => Nat.lt_of_succ_le (hlow x hx)) hsorted
        · intro x hx
          rcases List.mem_cons.mp hx with e | e
          · exact Nat.le_of_eq e.symm
          · exact Nat.le_of_succ_le (hlow x e)
        · intro hd x st hx hst hne
          by_cases hxi : x = i
          · rw [hxi]; exact List.mem_cons_self i idx
          · exact List.mem_cons_of_mem i (hall hd x st (by omega) hst hne)

/-! ## The claims -/

/-- C9: for every environment mapping, in any iteration order, a line that
contains no dollar sign is returned unchanged by `expandEnvironmentVariables`. -/
theorem expandEnvironmentVariables_no_dollar (env : List (Str × Str)) (line : Str)
    (h : '$' ∉ line) : expandEnvironmentVariables env line = line :=
  expand_absent env line h

/-- Witness of C9 on the line `echo hi` with two variables set. -/
theorem expandEnvironmentVariables_no_dollar_witness :
    '$' ∉ "echo hi".toList ∧
    expandEnvironmentVariables [("HOME".toList, "/root".toList), ("e".toList, "$x".toList)]
      "echo hi".toList = "echo hi".toList :=
  ⟨by decide, expandEnvironmentVariables_no_dollar _ _ (by decide)⟩

/-- C7: a stage text in which neither the number of `<` nor the number of `>` is
exactly one comes back from `parseRedirects` unchanged, character for character,
with an empty `RedirectInfo`. -/
theorem parseRedirects_malformed_noop (s : Str) (hin : s.count '<' ≠ 1)
    (hout : s.count '>' ≠ 1) :
    parseRedirects s = (s, { inputFile := [], outputFile := [], append := false }) := by
  unfold parseRedirects
  simp only [parseInput_unchanged s _ hin]
  exact parseOutput_unchanged s _ hout

/-- Witness of C7 on the stage `echo a > b > c`. -/
theorem parseRedirects_malformed_noop_witness :
    "echo a > b > c".toList.count '<' ≠ 1 ∧ "echo a > b > c".toList.count '>' ≠ 1 ∧
    parseRedirects "echo a > b > c".toList =
      ("echo a > b > c".toList, { inputFile := [], outputFile := [], append := false }) :=
  ⟨by decide, by decide, parseRedirects_malformed_noop _ (by decide) (by decide)⟩

/-- C1, as stated, fails: on the line `a || b` the splitter produces the two
segments `a` and `b`, and `executeCommand` hands only `a` to an execution path. -/
theorem executeCommand_skips_or_segment :
    (parseConditionalCommands (expandEnvironmentVariables [] "a || b".toList)).map
        (fun c => (c.command, c.condition)) =
      [("a".toList, []), ("b".toList, "||".toList)] ∧
    executeCommand logSimple logPipeline [] "a || b".toList [] = [["a".toList]] ∧
    executeCommand logSimple logPipeline [] "a || b".toList [] ≠
      (parseConditionalCommands (expandEnvironmentVariables [] "a || b".toList)).foldl
        (fun st c => dispatch logSimple logPipeline c st) [] := by
  decide

/-- C1, amended: for every input line, whatever the two execution paths do,
`executeCommand` executes in order exactly the segments of the Conditional
Splitter whose joining operator is not `||` (those joined by nothing or by `&&`);
a segment joined by `||` is never executed. -/
theorem executeCommand_runs_non_or_segments {σ : Type} (simple : Str → σ → σ)
    (pipeline : List Str → σ → σ) (env : List (Str × Str)) (input : Str) (w : σ) :
    executeCommand simple pipeline env input w =
      ((parseConditionalCommands (expandEnvironmentVariables env input)).filter
          (fun c => decide (c.condition ≠ "||".toList))).foldl
        (fun st c => dispatch simple pipeline c st) w :=
  runCommands_gated simple pipeline _ w (parsed_shouldExecute _)

/-- C6: for every input line, a segment joined by nothing or by `&&` is executed
in the state the earlier segments left, whatever that state is; and on the line
`false && echo hi`, for every host and environment, the segment `echo hi` runs
after the external command `false` and appends `hi` and a newline to the
interpreter's standard output. -/
theorem and_segment_always_runs :
    (∀ {σ : Type} (simple : Str → σ → σ) (pipeline : List Str → σ → σ)
        (env : List (Str × Str)) (input : Str) (w : σ) (pre post : List Command)
        (c : Command),
        parseConditionalCommands (expandEnvironmentVariables env input) = pre ++ c :: post →
        (c.condition = [] ∨ c.condition = "&&".toList) →
        executeCommand simple pipeline env input w =
          runCommands simple pipeline post
            (dispatch simple pipeline c (runCommands simple pipeline pre w))) ∧
    (∀ (host : Host) (env : List (Str × Str)) (w : World),
        shellExecute host env "false && echo hi".toList w =
          builtinEcho ["hi".toList]
            (host.executeExternalCommandWithRedirects "false".toList []
              { inputFile := [], outputFile := [], append := false } w) ∧
        (shellExecute host env "false && echo hi".toList w).stdout =
          (host.executeExternalCommandWithRedirects "false".toList []
              { inputFile := [], outputFile := [], append := false } w).stdout ++
            "hi\n".toList) := by
  constructor
  · intro σ simple pipeline env input w pre post c hsplit hop
    have hc : c.shouldExecute = true :=
      parsed_shouldExecute (expandEnvironmentVariables env input) c (by rw [hsplit]; simp)
    unfold executeCommand
    rw [hsplit, runCommands_append]
    have hand : ¬ (c.condition = "&&".toList ∧ c.shouldExecute = false) := by
      intro hn; rw [hc] at hn; exact Bool.noConfusion hn.2
    have hor : ¬ (c.condition = "||".toList ∧ c.shouldExecute = true) := by
      intro hn
      rcases hop with h | h
      · rw [h] at hn; exact absurd hn.1 (by decide)
      · rw [h] at hn; exact absurd hn.1 (by decide)
    simp only [runCommands]
    rw [if_neg hand, if_neg hor]
  · intro host env w
    have hexp : expandEnvironmentVariables env "false && echo hi".toList =
        "false && echo hi".toList := expand_absent env _ (by decide)
    have hrun : shellExecute host env "false && echo hi".toList w =
        builtinEcho ["hi".toList]
          (host.executeExternalCommandWithRedirects "false".toList []
            { inputFile := [], outputFile := [], append := false } w) := by
      unfold shellExecute executeCommand
      rw [hexp]
      rfl
    exact ⟨hrun, by rw [hrun]; rfl⟩

/-- Witness of C6 on the line `false && echo hi`, observed through the dispatch log. -/
theorem and_segment_always_runs_witness :
    parseConditionalCommands (expandEnvironmentVariables [] "false && echo hi".toList) =
      [{ command := "false".toList, condition := [], shouldExecute := true }] ++
        { command := "echo hi".toList, condition := "&&".toList, shouldExecute := true } :: [] ∧
    executeCommand logSimple logPipeline [] "false && echo hi".toList [] =
      runCommands logSimple logPipeline []
        (dispatch logSimple logPipeline
          { command := "echo hi".toList, condition := "&&".toList, shouldExecute := true }
          (runCommands logSimple logPipeline
            [{ command := "false".toList, condition := [], shouldExecute := true }] [])) :=
  ⟨by decide, and_segment_always_runs.1 logSimple logPipeline [] "false && echo hi".toList []
    [{ command := "false".toList, condition := [], shouldExecute := true }] []
    { command := "echo hi".toList, condition := "&&".toList, shouldExecute := true }
    (by decide) (Or.inr rfl)⟩

/-- C2 fails on the code: the stage `echo b >> F` comes back from `parseRedirects`
unchanged with an empty `RedirectInfo`, and on no stage text at all does
`parseRedirects` set `append`. -/
theorem parseRedirects_append_never_set :
    parseRedirects "echo b >> F".toList =
      ("echo b >> F".toList, { inputFile := [], outputFile := [], append := false }) ∧
    ∀ s : Str, (parseRedirects s).2.append = false := by
  refine ⟨by decide, fun s => ?_⟩
  unfold parseRedirects
  exact parseOutput_append _ _ (by rw [parseInput_append])

/-- C3 fails on the code: on `sort < in.txt > out.txt` the whole text after `<`
becomes the input file and no output file is recorded. -/
theorem parseRedirects_input_then_output :
    parseRedirects "sort < in.txt > out.txt".toList =
      ("sort".toList,
        { inputFile := "in.txt > out.txt".toList, outputFile := [], append := false }) := by
  decide

/-- C4 fails on the code: for every host, environment and state, executing
`echo hi > F` appends `hi` and a newline to the interpreter's own standard output
and leaves every file as it was. -/
theorem echo_redirect_ignored (host : Host) (env : List (Str × Str)) (w : World) :
    executeSimpleCommand host env "echo hi > F".toList w =
      { stdout := w.stdout ++ "hi\n".toList, files := w.files } ∧
    (executeSimpleCommand host env "echo hi > F".toList w).files = w.files :=
  ⟨rfl, rfl⟩

/-- C5 fails on the code: the stage `a > b < c > d` contains two `>` characters
and `parseRedirects` still records the output file `b`. -/
theorem parseRedirects_two_outputs_recorded :
    "a > b < c > d".toList.count '>' = 2 ∧
    parseRedirects "a > b < c > d".toList =
      ("a".toList,
        { inputFile := "c > d".toList, outputFile := "b".toList, append := false }) := by
  decide

/-- C8 fails on the code: when the second stage of `ls | nosuchcmd` does not start,
and when the second pipe of a three-stage pipeline cannot be created,
`executePipeline` returns with the endpoints 3 and 4 created and none closed. -/
theorem executePipeline_leaks_pipes :
    executePipeline
        { pipe := fun k => some (2 * k + 3, 2 * k + 4), start := fun i _ => decide (i = 0) }
        ["ls ".toList, " nosuchcmd".toList] =
      some { pipes := [3, 4],
             processes := [{ path := "ls".toList, args := [], stdin := .inherited,
                             stdout := .handle 4 }],
             waited := [], closed := [], reports := [.startError] } ∧
    executePipeline
        { pipe := fun k => if k = 0 then some (3, 4) else none, start := fun _ _ => true }
        ["a".toList, "b".toList, "c".toList] =
      some { pipes := [3, 4], processes := [], waited := [], closed := [],
             reports := [.pipeError] } := by
  decide

/-- C10: for a stage list of length N at least 2 whose N-1 pipe creations all
succeed, the handle list has length 2(N-1); for every stage index the lookups
`pipes[(i-1)*2]` (when `i > 0`) and `pipes[i*2+1]` (when `i < N-1`) are in bounds
and yield the read end of pipe `i-1` and the write end of pipe `i`; and
`executePipeline` runs without an index out of range and binds the processes it
starts accordingly: the started processes are, in order, stages `idx` of the list
(every non-empty stage when no start fails), the process of stage `i` has the
fields of stage `i` as its command line, reads the read end of pipe `i-1` (the
inherited input when `i = 0`) and writes the write end of pipe `i` (the inherited
output when `i = N-1`), so that the output of stage `i` and the input of stage
`i+1` are the two ends of pipe `i`. -/
theorem executePipeline_wiring (os : PipeOS) (stages : List Str)
    (hN : 2 ≤ stages.length) (hp : ∀ k, k < stages.length - 1 → (os.pipe k).isSome) :
    ∃ pipes, createPipes os.pipe (stages.length - 1) 0 [] = .ok pipes ∧
      pipes.length = 2 * (stages.length - 1) ∧
      (∀ i, i < stages.length →
        (0 < i → ∃ r w, os.pipe (i - 1) = some (r, w) ∧ (i - 1) * 2 < pipes.length ∧
          pipes[(i - 1) * 2]? = some r ∧ stageStdin pipes i = some (.handle r)) ∧
        (i < stages.length - 1 → ∃ r w, os.pipe i = some (r, w) ∧
          i * 2 + 1 < pipes.length ∧ pipes[i * 2 + 1]? = some w ∧
          stageStdout pipes stages.length i = some (.handle w))) ∧
      (∀ i, i + 1 < stages.length → ∃ r w, os.pipe i = some (r, w) ∧
        stageStdout pipes stages.length i = some (.handle w) ∧
        stageStdin pipes (i + 1) = some (.handle r)) ∧
      stageStdin pipes 0 = some .inherited ∧
      stageStdout pipes stages.length (stages.length - 1) = some .inherited ∧
      ∃ result idx, executePipeline os stages = some result ∧ result.pipes = pipes ∧
        List.Forall₂ (fun i p =>
          i < stages.length ∧
          (∃ stage, stages[i]? = some stage ∧ Fields stage = p.path :: p.args) ∧
          (i = 0 → p.stdin = .inherited) ∧
          (0 < i → ∃ r w, os.pipe (i - 1) = some (r, w) ∧ p.stdin = .handle r) ∧
          (i = stages.length - 1 → p.stdout = .inherited) ∧
          (i < stages.length - 1 → ∃ r w, os.pipe i = some (r, w) ∧
            p.stdout = .handle w)) idx result.processes ∧
        idx.Pairwise (fun a b => a < b) ∧
        (result.reports = [] → ∀ i stage, stages[i]? = some stage →
          Fields stage ≠ [] → i ∈ idx) ∧
        ((∀ i cmd, os.start i cmd = true) → result.reports = []) := by
  obtain ⟨pipes, hps, hlen, -, hget⟩ :=
    createPipes_ok os.pipe (stages.length - 1) 0 [] (fun k hk => by
      rw [Nat.zero_add]; exact hp k hk)
  have hlen2 : pipes.length = 2 * (stages.length - 1) := by simpa using hlen
  have hread : ∀ k, k < stages.length - 1 → ∃ r w, os.pipe k = some (r, w) ∧
      pipes[k * 2]? = some r ∧ pipes[k * 2 + 1]? = some w := by
    intro k hk
    obtain ⟨r, w, h1, h2, h3⟩ := hget k hk
    refine ⟨r, w, by simpa using h1, ?_, ?_⟩
    · rw [← h2]; congr 1; simp; omega
    · rw [← h3]; congr 1; simp; omega
  have hin : ∀ i, 0 < i → i < stages.length → ∃ r w, os.pipe (i - 1) = some (r, w) ∧
      (i - 1) * 2 < pipes.length ∧ pipes[(i - 1) * 2]? = some r ∧
      stageStdin pipes i = some (.handle r) := by
    intro i h0 hi
    obtain ⟨r, w, h1, h2, -⟩ := hread (i - 1) (by omega)
    refine ⟨r, w, h1, by rw [hlen2]; omega, h2, ?_⟩
    unfold stageStdin
    rw [if_neg (by omega), h2]; rfl
  have hout : ∀ i, i < stages.length - 1 → ∃ r w, os.pipe i = some (r, w) ∧
      i * 2 + 1 < pipes.length ∧ pipes[i * 2 + 1]? = some w ∧
      stageStdout pipes stages.length i = some (.handle w) := by
    intro i hi
    obtain ⟨r, w, h1, -, h3⟩ := hread i hi
    refine ⟨r, w, h1, by rw [hlen2]; omega, h3, ?_⟩
    unfold stageStdout
    rw [if_neg (by omega), h3]; rfl
  have hfirst : stageStdin pipes 0 = some .inherited := rfl
  have hlast : stageStdout pipes stages.length (stages.length - 1) = some .inherited := by
    unfold stageStdout; rw [if_pos rfl]
  refine ⟨pipes, hps, hlen2, fun i hi => ⟨fun h0 => hin i h0 hi, hout i⟩, ?_, hfirst,
    hlast, ?_⟩
  · intro i hi
    obtain ⟨r, w, h1, -, -, h4⟩ := hout i (by omega)
    obtain ⟨r2, w2, h5, -, -, h8⟩ := hin (i + 1) (Nat.succ_pos i) hi
    rw [Nat.add_sub_cancel, h1] at h5
    obtain ⟨rfl, rfl⟩ := Prod.mk.inj (Option.some.inj h5)
    exact ⟨r, w, h1, h4, h8⟩
  · obtain ⟨started, done, idx, hrun, hwired, hsorted, -, hall, hdone⟩ :=
      startStages_wired os pipes stages hlen2 stages 0 [] rfl
    rw [List.nil_append] at hrun
    have hbound : List.Forall₂ (fun i p =>
        i < stages.length ∧
        (∃ stage, stages[i]? = some stage ∧ Fields stage = p.path :: p.args) ∧
        (i = 0 → p.stdin = .inherited) ∧
        (0 < i → ∃ r w, os.pipe (i - 1) = some (r, w) ∧ p.stdin = .handle r) ∧
        (i = stages.length - 1 → p.stdout = .inherited) ∧
        (i < stages.length - 1 → ∃ r w, os.pipe i = some (r, w) ∧
          p.stdout = .handle w)) idx started := by
      refine List.Forall₂.imp ?_ hwired
      intro i p hip
      obtain ⟨⟨stage, hst, hfields⟩, hsin, hsout⟩ := hip
      have hil : i < stages.length := (List.getElem?_eq_some_iff.mp hst).1
      refine ⟨hil, ⟨stage, hst, hfields⟩, ?_, ?_, ?_, ?_⟩
      · intro h0
        rw [h0, hfirst] at hsin
        exact (Option.some.inj hsin).symm
      · intro h0
        obtain ⟨r, w, h1, -, -, h4⟩ := hin i h0 hil
        rw [h4] at hsin
        exact ⟨r, w, h1, (Option.some.inj hsin).symm⟩
      · intro h0
        rw [h0, hlast] at hsout
        exact (Option.some.inj hsout).symm
      · intro h0
        obtain ⟨r, w, h1, -, -, h4⟩ := hout i h0
        rw [h4] at hsout
        exact ⟨r, w, h1, (Option.some.inj hsout).symm⟩
    have hnonempty : ¬ stages.length = 0 := by omega
    cases done with
    | true =>
      refine ⟨{ pipes := pipes, processes := started, waited := started,
                closed := pipes, reports := [] }, idx, ?_, rfl, hbound, hsorted,
        fun _ i stage hst hne => hall rfl i stage (Nat.zero_le i) hst hne, fun _ => rfl⟩
      unfold executePipeline
      rw [if_neg hnonempty]
      simp only [hps, hrun]
    | false =>
      refine ⟨{ pipes := pipes, processes := started, waited := [],
                closed := [], reports := [.startError] }, idx, ?_, rfl, hbound, hsorted,
        fun h => absurd h (by simp), fun hstart => Bool.noConfusion (hdone hstart)⟩
      unfold executePipeline
      rw [if_neg hnonempty]
      simp only [hps, hrun]

/-- Witness of C10 on the three-stage pipeline `ls | sort | wc`, with the state
`executePipeline` computes there. -/
theorem executePipeline_wiring_witness :
    2 ≤ demoStages.length ∧ (∀ k, k < demoStages.length - 1 → (demoOS.pipe k).isSome) ∧
    executePipeline demoOS demoStages =
      some { pipes := [3, 4, 5, 6],
             processes :=
               [{ path := "ls".toList, args := [], stdin := .inherited, stdout := .handle 4 },
                { path := "sort".toList, args := [], stdin := .handle 3, stdout := .handle 6 },
                { path := "wc".toList, args := [], stdin := .handle 5, stdout := .inherited }],
             waited :=
               [{ path := "ls".toList, args := [], stdin := .inherited, stdout := .handle 4 },
                { path := "sort".toList, args := [], stdin := .handle 3, stdout := .handle 6 },
                { path := "wc".toList, args := [], stdin := .handle 5, stdout := .inherited }],
             closed := [3, 4, 5, 6], reports := [] } ∧
    (∃ pipes, createPipes demoOS.pipe (demoStages.length - 1) 0 [] = .ok pipes ∧
      pipes.length = 2 * (demoStages.length - 1) ∧
      (∀ i, i < demoStages.length →
        (0 < i → ∃ r w, demoOS.pipe (i - 1) = some (r, w) ∧ (i - 1) * 2 < pipes.length ∧
          pipes[(i - 1) * 2]? = some r ∧ stageStdin pipes i = some (.handle r)) ∧
        (i < demoStages.length - 1 → ∃ r w, demoOS.pipe i = some (r, w) ∧
          i * 2 + 1 < pipes.length ∧ pipes[i * 2 + 1]? = some w ∧
          stageStdout pipes demoStages.length i = some (.handle w))) ∧
      (∀ i, i + 1 < demoStages.length → ∃ r w, demoOS.pipe i = some (r, w) ∧
        stageStdout pipes demoStages.length i = some (.handle w) ∧
        stageStdin pipes (i + 1) = some (.handle r)) ∧
      stageStdin pipes 0 = some .inherited ∧
      stageStdout pipes demoStages.length (demoStages.length - 1) = some .inherited ∧
      ∃ result idx, executePipeline demoOS demoStages = some result ∧ result.pipes = pipes ∧
        List.Forall₂ (fun i p =>
          i < demoStages.length ∧
          (∃ stage, demoStages[i]? = some stage ∧ Fields stage = p.path :: p.args) ∧
          (i = 0 → p.stdin = .inherited) ∧
          (0 < i → ∃ r w, demoOS.pipe (i - 1) = some (r, w) ∧ p.stdin = .handle r) ∧
          (i = demoStages.length - 1 → p.stdout = .inherited) ∧
          (i < demoStages.length - 1 → ∃ r w, demoOS.pipe i = some (r, w) ∧
            p.stdout = .handle w)) idx result.processes ∧
        idx.Pairwise (fun a b => a < b) ∧
        (result.reports = [] → ∀ i stage, demoStages[i]? = some stage →
          Fields stage ≠ [] → i ∈ idx) ∧
        ((∀ i cmd, demoOS.start i cmd = true) → result.reports = [])) :=
  ⟨by decide, fun _ _ => rfl, by decide,
    executePipeline_wiring demoOS demoStages (by decide) (fun _ _ => rfl)⟩

end MiniShell
